import Mathlib

/-!
Verification of the crawl-index-retrieve pipeline of
`src/app/api/chat/route.ts` (swarise-webpage-chatbot).

The TypeScript source is shallowly embedded below: strings are `List Char`,
the external web / embedding service / vector store are parameters of the
definitions, and each JavaScript function is translated into an executable
Lean function keeping its source name (`chunkText`, `crawlSiteRecursive`,
`embedText`, `ensurePageIndexed`, `ensurePagesIndexed`, `searchDocuments`).
-/

namespace Swarise

/-- JavaScript `String.prototype.trim`: drop leading and trailing whitespace. -/
def jsTrim (s : List Char) : List Char :=
  ((s.dropWhile Char.isWhitespace).reverse.dropWhile Char.isWhitespace).reverse

/-- Loop body of `chunkText` from the source:
`for (let i = 0; i < text.length; i += size - overlap) { const piece =
text.slice(i, i + size).trim(); if (piece.length > 50) chunks.push(piece); }`.
The `fuel` argument only bounds the number of iterations; for every
terminating run of the JavaScript loop (step `size - overlap ≥ 1`) a fuel of
`text.length + 1` is enough, so `chunkText` below is an exact translation. -/
def chunkLoop (text : List Char) (size step : Nat) : Nat → Nat → List (List Char)
  | _, 0 => []
  | i, fuel + 1 =>
    if i < text.length then
      (let piece := jsTrim ((text.drop i).take size)
       if 50 < piece.length then [piece] else []) ++ chunkLoop text size step (i + step) fuel
    else []

/-- `chunkText(text, size, overlap)` from the source (defaults `size = 800`,
`overlap = 200` are passed explicitly at every call site below). -/
def chunkText (text : List Char) (size overlap : Nat) : List (List Char) :=
  chunkLoop text size (size - overlap) 0 (text.length + 1)

/-- The start offsets named by the spec sentence: multiples of
`size − overlap = 600` that are strictly less than `text.length`,
in increasing order. -/
def chunkStarts (len : Nat) : List Nat :=
  ((List.range (len + 1)).map (fun k => 600 * k)).filter (fun i => decide (i < len))

/-- The window taken at offset `i`: up to 800 characters, trimmed. -/
def chunkWindow (text : List Char) (i : Nat) : List Char :=
  jsTrim ((text.drop i).take 800)

/-- The chunker as the spec describes it: one window per start offset,
emitted exactly when its trimmed length exceeds 50 characters, in offset
order. -/
def chunkSpec (text : List Char) : List (List Char) :=
  (chunkStarts text.length).filterMap (fun i =>
    if 50 < (chunkWindow text i).length then some (chunkWindow text i) else none)

/-- Offsets visited by `chunkLoop` with step 600 (same iteration structure). -/
def offsetsLoop (len : Nat) : Nat → Nat → List Nat
  | _, 0 => []
  | i, fuel + 1 => if i < len then i :: offsetsLoop len (i + 600) fuel else []

theorem chunkLoop_eq_filterMap_offsetsLoop (text : List Char) :
    ∀ fuel i, chunkLoop text 800 600 i fuel =
      (offsetsLoop text.length i fuel).filterMap (fun j =>
        if 50 < (chunkWindow text j).length then some (chunkWindow text j) else none) := by
  intro fuel
  induction fuel with
  | zero => intro i; rfl
  | succ n ih =>
    intro i
    by_cases h : i < text.length
    · simp only [chunkLoop, offsetsLoop, if_pos h, List.filterMap_cons, chunkWindow]
      by_cases h50 : 50 < (jsTrim ((text.drop i).take 800)).length
      · simp [if_pos h50, ih, chunkWindow]
      · simp [if_neg h50, ih, chunkWindow]
    · simp [chunkLoop, offsetsLoop, if_neg h]

theorem offsetsLoop_eq_range_map (len : Nat) :
    ∀ fuel i, len ≤ i + 600 * fuel →
      offsetsLoop len i fuel =
        ((List.range fuel).map (fun t => i + 600 * t)).filter (fun j => decide (j < len)) := by
  intro fuel
  induction fuel with
  | zero => intro i _; rfl
  | succ n ih =>
    intro i hle
    by_cases h : i < len
    · rw [offsetsLoop, if_pos h, List.range_succ_eq_map]
      simp only [List.map_cons, List.map_map]
      rw [List.filter_cons]
      have hc : (decide (i + 600 * 0 < len)) = true := by
        simp only [Nat.mul_zero, Nat.add_zero]
        exact decide_eq_true h
      rw [hc]
      simp only [Nat.mul_zero, Nat.add_zero, if_true]
      have hmap : (List.range n).map ((fun t => i + 600 * t) ∘ Nat.succ) =
          (List.range n).map (fun t => (i + 600) + 600 * t) := by
        apply List.map_congr_left
        intro t _
        simp only [Function.comp]
        omega
      rw [hmap, ih (i + 600) (by omega)]
    · rw [offsetsLoop, if_neg h]
      symm
      rw [List.filter_eq_nil_iff]
      intro j hj
      rcases List.mem_map.mp hj with ⟨t, _, rfl⟩
      simp only [decide_eq_true_eq]
      omega

theorem chunkText_eq_chunkSpec (text : List Char) :
    chunkText text 800 200 = chunkSpec text := by
  rw [chunkText, chunkSpec, chunkLoop_eq_filterMap_offsetsLoop]
  congr 1
  rw [offsetsLoop_eq_range_map text.length (text.length + 1) 0 (by omega)]
  rw [chunkStarts]
  congr 1
  apply List.map_congr_left
  intro t _
  omega

set_option maxRecDepth 100000 in
/-- C1: `chunkText(text, 800, 200)` considers windows at offsets
`0, 600, 1200, …` strictly below `text.length`, takes up to 800 characters
from each offset, trims the window, emits it exactly when its trimmed length
exceeds 50 characters, in offset order; chunking 1000 copies of the
character a yields exactly the two chunks of characters `[0,800)` and
`[600,1000)`. -/
theorem chunkText_c1 :
    (∀ text : List Char, chunkText text 800 200 = chunkSpec text) ∧
    chunkText (List.replicate 1000 'a') 800 200 =
      [List.replicate 800 'a', List.replicate 400 'a'] := by
  constructor
  · exact chunkText_eq_chunkSpec
  · decide

/-! ## Site crawler -/

/-- URLs are strings. -/
abbrev Url := List Char

/-- The external web, as seen through `page.goto` + `page.evaluate`:
`none` models a page that fails to load or render (timeout, network error,
navigation error — the `catch` path of the source); `some anchors` models a
successful render whose `<a>` elements have the given absolute `href`s. -/
abbrev Web := Url → Option (List Url)

/-- Modelled from the spec: the browser's `window.location.origin` used by
the source's link filter (`href.startsWith(window.location.origin)`); the
spec glossary defines an origin as scheme+host+port, i.e. the URL up to the
first slash after the `://` separator. The browser itself is not repository
code, so this is the one definition taken from the spec's words. -/
def hostPart : List Char → List Char
  | [] => []
  | c :: cs => if c = '/' then [] else c :: hostPart cs

/-- Scheme-aware part of the origin computation: keep everything up to and
including `://`, then the host(:port) part up to the next slash. -/
def originOf : List Char → List Char
  | ':' :: '/' :: '/' :: rest => ':' :: '/' :: '/' :: hostPart rest
  | c :: cs => c :: originOf cs
  | [] => []

/-- JavaScript `Array.from(new Set(xs))`: first occurrences, insertion
order. -/
def jsSetDedupAux (seen : List Url) : List Url → List Url
  | [] => []
  | x :: xs => if x ∈ seen then jsSetDedupAux seen xs else x :: jsSetDedupAux (x :: seen) xs

/-- Deduplication as performed inside `page.evaluate`. -/
def jsSetDedup (l : List Url) : List Url := jsSetDedupAux [] l

/-- The `page.evaluate` body of `crawlSiteRecursive`: collect anchors,
keep those whose href starts with the rendered page's origin string, then
deduplicate; `none` when the page failed to load. -/
def pageLinks (web : Web) (url : Url) : Option (List Url) :=
  match web url with
  | none => none
  | some anchors => some (jsSetDedup (anchors.filter (fun h => (originOf url).isPrefixOf h)))

/-- Render-context (puppeteer page) lifecycle events, used to verify the
failure-path resource release of the source's `catch` block. -/
inductive PageEvent
  | opened (u : Url)
  | closed (u : Url)
deriving DecidableEq

/-- Observable outcome of one (sub)crawl: the returned `newLinks` list, the
final state of the shared `visited` set (a JS `Set` modelled as a list, most
recently added first), the URLs actually rendered (`browser.newPage` +
`page.goto`), and the page open/close event trace. -/
structure CrawlOut where
  results : List Url
  visited : List Url
  renders : List Url
  events : List PageEvent
deriving DecidableEq

/-- The loop `for (const link of links) newLinks.push(...await
crawlSiteRecursive(browser, link, depth - 1, visited))`, abstracted over the
recursive call `f` so the whole crawler is structurally recursive on the
depth. The shared mutable `visited` set is threaded left to right. -/
def crawlLinks (f : Url → List Url → CrawlOut) : List Url → List Url → CrawlOut
  | [], visited => ⟨[], visited, [], []⟩
  | l :: ls, visited =>
    let o1 := f l visited
    let o2 := crawlLinks f ls o1.visited
    ⟨o1.results ++ o2.results, o2.visited, o1.renders ++ o2.renders, o1.events ++ o2.events⟩

/-- `crawlSiteRecursive` from the source: return `[]` at exhausted depth or
an already-visited URL; otherwise mark visited, open a page, render, filter
and deduplicate same-origin links, close the page, and return `[baseUrl]`
followed by the recursive results; on a render failure the `catch` block
closes the page and returns `[]`. -/
def crawlSiteRecursive (web : Web) : Nat → Url → List Url → CrawlOut
  | 0 => fun _ visited => ⟨[], visited, [], []⟩
  | d + 1 => fun baseUrl visited =>
    if baseUrl ∈ visited then ⟨[], visited, [], []⟩
    else
      match pageLinks web baseUrl with
      | none => ⟨[], baseUrl :: visited, [baseUrl], [.opened baseUrl, .closed baseUrl]⟩
      | some links =>
        let rest := crawlLinks (crawlSiteRecursive web d) links (baseUrl :: visited)
        ⟨baseUrl :: rest.results, rest.visited, baseUrl :: rest.renders,
          .opened baseUrl :: .closed baseUrl :: rest.events⟩

/-- The page event trace a sequence of renders must produce: each rendered
URL opens one page and closes it before the next render. -/
def balancedEvents (renders : List Url) : List PageEvent :=
  renders.flatMap (fun u => [.opened u, .closed u])

/-- Structural invariant of one (sub)crawl, relative to the incoming
`visited` set. -/
def CrawlOutInv (o : CrawlOut) (visited : List Url) : Prop :=
  o.visited = o.renders.reverse ++ visited ∧
  (∀ u ∈ o.renders, u ∉ visited) ∧
  o.renders.Nodup ∧
  o.results.Sublist o.renders ∧
  o.events = balancedEvents o.renders

theorem crawlOutInv_append {o1 o2 : CrawlOut} {visited : List Url}
    (h1 : CrawlOutInv o1 visited) (h2 : CrawlOutInv o2 o1.visited) :
    CrawlOutInv
      ⟨o1.results ++ o2.results, o2.visited, o1.renders ++ o2.renders, o1.events ++ o2.events⟩
      visited := by
  obtain ⟨hv1, hm1, hn1, hs1, he1⟩ := h1
  obtain ⟨hv2, hm2, hn2, hs2, he2⟩ := h2
  refine ⟨?_, ?_, ?_, ?_, ?_⟩
  · simp only [hv2, hv1, List.reverse_append, List.append_assoc]
  · intro u hu
    rcases List.mem_append.mp hu with hu | hu
    · exact hm1 u hu
    · have := hm2 u hu
      rw [hv1] at this
      intro hvis
      exact this (List.mem_append.mpr (Or.inr hvis))
  · refine List.Nodup.append hn1 hn2 ?_
    intro u hu1 hu2
    have := hm2 u hu2
    rw [hv1] at this
    exact this (List.mem_append.mpr (Or.inl (List.mem_reverse.mpr hu1)))
  · exact List.Sublist.append hs1 hs2
  · simp [he1, he2, balancedEvents]

theorem crawlLinks_inv (f : Url → List Url → CrawlOut)
    (hf : ∀ u vis, CrawlOutInv (f u vis) vis) :
    ∀ links visited, CrawlOutInv (crawlLinks f links visited) visited := by
  intro links
  induction links with
  | nil =>
    intro visited
    exact ⟨rfl, fun u hu => absurd hu (List.not_mem_nil u), List.nodup_nil,
      List.Sublist.refl _, rfl⟩
  | cons l ls ih =>
    intro visited
    simp only [crawlLinks]
    exact crawlOutInv_append (hf l visited) (ih ((f l visited).visited))

theorem crawlSiteRecursive_inv (web : Web) :
    ∀ depth baseUrl visited,
      CrawlOutInv (crawlSiteRecursive web depth baseUrl visited) visited := by
  intro depth
  induction depth with
  | zero =>
    intro baseUrl visited
    exact ⟨rfl, fun u hu => absurd hu (List.not_mem_nil u), List.nodup_nil,
      List.Sublist.refl _, rfl⟩
  | succ d ih =>
    intro baseUrl visited
    by_cases hvis : baseUrl ∈ visited
    · simp only [crawlSiteRecursive, if_pos hvis]
      exact ⟨rfl, fun u hu => absurd hu (List.not_mem_nil u), List.nodup_nil,
      List.Sublist.refl _, rfl⟩
    · simp only [crawlSiteRecursive, if_neg hvis]
      match hpl : pageLinks web baseUrl with
      | none =>
        refine ⟨rfl, ?_, ?_, ?_, rfl⟩
        · intro u hu
          rcases List.mem_singleton.mp hu with rfl
          exact hvis
        · exact List.nodup_singleton _
        · exact List.nil_sublist _
      | some links =>
        have hrest := crawlLinks_inv (crawlSiteRecursive web d) (ih) links (baseUrl :: visited)
        obtain ⟨hv, hm, hn, hs, he⟩ := hrest
        refine ⟨?_, ?_, ?_, ?_, ?_⟩
        · simp only [hv, List.reverse_cons, List.append_assoc, List.cons_append,
            List.nil_append]
        · intro u hu
          rcases List.mem_cons.mp hu with rfl | hu
          · exact hvis
          · have := hm u hu
            intro hvisu
            exact this (List.mem_cons.mpr (Or.inr hvisu))
        · refine List.nodup_cons.mpr ⟨?_, hn⟩
          intro hmem
          exact hm baseUrl hmem (List.mem_cons_self _ _)
        · exact List.Sublist.cons₂ _ hs
        · simp [he, balancedEvents]

theorem mem_of_mem_jsSetDedupAux :
    ∀ (l : List Url) (seen : List Url) (u : Url), u ∈ jsSetDedupAux seen l → u ∈ l := by
  intro l
  induction l with
  | nil => intro seen u hu; cases hu
  | cons x xs ih =>
    intro seen u hu
    rw [jsSetDedupAux] at hu
    by_cases hx : x ∈ seen
    · exact List.mem_cons.mpr (Or.inr (ih seen u (by rwa [if_pos hx] at hu)))
    · rw [if_neg hx] at hu
      rcases List.mem_cons.mp hu with rfl | hu
      · exact List.mem_cons_self _ _
      · exact List.mem_cons.mpr (Or.inr (ih (x :: seen) u hu))

theorem pageLinks_prefix (web : Web) (url : Url) (links : List Url)
    (h : pageLinks web url = some links) :
    ∀ u ∈ links, (originOf url).isPrefixOf u = true := by
  intro u hu
  rw [pageLinks] at h
  match hw : web url with
  | none => rw [hw] at h; cases h
  | some anchors =>
    rw [hw] at h
    injection h with h
    subst h
    have := mem_of_mem_jsSetDedupAux _ [] u hu
    exact (List.mem_filter.mp this).2

theorem crawlLinks_results_origin (f : Url → List Url → CrawlOut)
    (hf : ∀ u vis, ∀ x ∈ (f u vis).results,
      x = u ∨ ∃ p ∈ (f u vis).renders, (originOf p).isPrefixOf x = true) :
    ∀ links visited, ∀ x ∈ (crawlLinks f links visited).results,
      x ∈ links ∨ ∃ p ∈ (crawlLinks f links visited).renders,
        (originOf p).isPrefixOf x = true := by
  intro links
  induction links with
  | nil => intro visited x hx; cases hx
  | cons l ls ih =>
    intro visited x hx
    simp only [crawlLinks] at hx ⊢
    rcases List.mem_append.mp hx with hx | hx
    · rcases hf l visited x hx with rfl | ⟨p, hp, hpre⟩
      · exact Or.inl (List.mem_cons_self _ _)
      · exact Or.inr ⟨p, List.mem_append.mpr (Or.inl hp), hpre⟩
    · rcases ih ((f l visited).visited) x hx with hmem | ⟨p, hp, hpre⟩
      · exact Or.inl (List.mem_cons.mpr (Or.inr hmem))
      · exact Or.inr ⟨p, List.mem_append.mpr (Or.inr hp), hpre⟩

theorem crawlSiteRecursive_results_origin (web : Web) :
    ∀ depth baseUrl visited, ∀ x ∈ (crawlSiteRecursive web depth baseUrl visited).results,
      x = baseUrl ∨ ∃ p ∈ (crawlSiteRecursive web depth baseUrl visited).renders,
        (originOf p).isPrefixOf x = true := by
  intro depth
  induction depth with
  | zero => intro baseUrl visited x hx; cases hx
  | succ d ih =>
    intro baseUrl visited x hx
    by_cases hvis : baseUrl ∈ visited
    · simp only [crawlSiteRecursive, if_pos hvis] at hx
      cases hx
    · simp only [crawlSiteRecursive, if_neg hvis] at hx ⊢
      rcases hpl : pageLinks web baseUrl with _ | links
      · rw [hpl] at hx
        exact absurd hx (List.not_mem_nil x)
      · rw [hpl] at hx
        rcases List.mem_cons.mp hx with rfl | hx
        · exact Or.inl rfl
        · rcases crawlLinks_results_origin (crawlSiteRecursive web d) (ih)
              links (baseUrl :: visited) x hx with hmem | ⟨p, hp, hpre⟩
          · exact Or.inr ⟨baseUrl, List.mem_cons_self _ _,
              pageLinks_prefix web baseUrl links hpl x hmem⟩
          · exact Or.inr ⟨p, List.mem_cons.mpr (Or.inr hp), hpre⟩

/-- C2: for every link graph and every depth bound the crawl is a total
function (the definition above is accepted by termination checking), renders
each URL at most once within one run, and at depth 0 returns the empty
sequence regardless of the seed's links. -/
theorem crawlSiteRecursive_c2 :
    (∀ (web : Web) (d : Nat) (seed : Url),
        ((crawlSiteRecursive web d seed []).renders).Nodup) ∧
    (∀ (web : Web) (seed : Url) (visited : List Url),
        (crawlSiteRecursive web 0 seed visited).results = []) := by
  constructor
  · intro web d seed
    exact (crawlSiteRecursive_inv web d seed []).2.2.1
  · intro web seed visited
    rfl

/-- C3: when the seed page loads successfully and the depth bound is at
least 1, the returned sequence contains the seed URL exactly once, even when
the seed has no outbound links. -/
theorem crawlSiteRecursive_c3 (web : Web) (seed : Url) (d : Nat) (anchors : List Url)
    (hload : web seed = some anchors) (hd : 1 ≤ d) :
    ((crawlSiteRecursive web d seed []).results).count seed = 1 := by
  obtain ⟨d', rfl⟩ : ∃ d', d = d' + 1 := ⟨d - 1, by omega⟩
  have hpl : pageLinks web seed =
      some (jsSetDedup (anchors.filter (fun h => (originOf seed).isPrefixOf h))) := by
    rw [pageLinks, hload]
  have hvis : seed ∉ ([] : List Url) := List.not_mem_nil _
  simp only [crawlSiteRecursive, if_neg hvis, hpl]
  rw [List.count_cons_self]
  have hrest := crawlLinks_inv (crawlSiteRecursive web d') (crawlSiteRecursive_inv web d')
    (jsSetDedup (anchors.filter (fun h => (originOf seed).isPrefixOf h))) (seed :: [])
  obtain ⟨_, hm, _, hs, _⟩ := hrest
  have hnot : seed ∉ (crawlLinks (crawlSiteRecursive web d')
      (jsSetDedup (anchors.filter (fun h => (originOf seed).isPrefixOf h)))
      (seed :: [])).results := by
    intro hmem
    exact hm seed (hs.subset hmem) (List.mem_cons_self _ _)
  rw [List.count_eq_zero.mpr hnot]

/-- Seed URL used in concrete crawler scenarios. -/
def seedW : Url := "https://site.example/".toList

/-- A web in which the seed renders with no outbound links. -/
def webW : Web := fun u => if u = seedW then some [] else none

theorem crawlSiteRecursive_c3_witness :
    ((crawlSiteRecursive webW 1 seedW []).results).count seedW = 1 :=
  crawlSiteRecursive_c3 webW seedW 1 [] (by simp [webW]) (by omega)

/-- A URL of a different origin that nevertheless starts with the seed's
origin string. -/
def evilW : Url := "https://site.example.evil.com/x".toList

/-- A web in which the seed links to `evilW` and `evilW` renders with no
links. -/
def webEvil : Web :=
  fun u => if u = seedW then some [evilW] else if u = evilW then some [] else none

/-- C4 counterexample: the crawl output contains a URL whose scheme+host+port
origin differs from the seed's, because the source filters links with
`href.startsWith(window.location.origin)` — a string-prefix test, not an
origin-equality test. -/
theorem crawlSiteRecursive_c4_counterexample :
    evilW ∈ (crawlSiteRecursive webEvil 2 seedW []).results ∧
      originOf evilW ≠ originOf seedW := by
  decide

/-- C4 as amended: every URL in the crawl output other than the seed was
discovered on some rendered page and has that page's origin string as a
string prefix; a hyperlink whose href does not start with the origin of the
page it appears on is never included. -/
theorem crawlSiteRecursive_c4_amended (web : Web) (depth : Nat) (seed u : Url)
    (hu : u ∈ (crawlSiteRecursive web depth seed []).results) :
    u = seed ∨ ∃ p ∈ (crawlSiteRecursive web depth seed []).renders,
      (originOf p).isPrefixOf u = true :=
  crawlSiteRecursive_results_origin web depth seed [] u hu

theorem crawlSiteRecursive_c4_witness :
    evilW = seedW ∨ ∃ p ∈ (crawlSiteRecursive webEvil 2 seedW []).renders,
      (originOf p).isPrefixOf evilW = true :=
  crawlSiteRecursive_c4_amended webEvil 2 seedW evilW (by decide)

/-- C5: a page that fails to load or render contributes no new links and the
call returns normally with the page marked visited, its render context
opened and then closed (the `catch` path releases the page); the surrounding
link loop continues with the remaining links; and in every crawl the page
event trace is exactly one open immediately followed by one close per
rendered URL, so every allocated render context is released. -/
theorem crawlSiteRecursive_c5 :
    (∀ (web : Web) (d : Nat) (p : Url) (visited : List Url),
        web p = none → p ∉ visited →
        crawlSiteRecursive web (d + 1) p visited =
          ⟨[], p :: visited, [p], [.opened p, .closed p]⟩) ∧
    (∀ (web : Web) (d : Nat) (p : Url) (ls : List Url) (visited : List Url),
        web p = none → p ∉ visited →
        (crawlLinks (crawlSiteRecursive web (d + 1)) (p :: ls) visited).results =
          (crawlLinks (crawlSiteRecursive web (d + 1)) ls (p :: visited)).results) ∧
    (∀ (web : Web) (d : Nat) (seed : Url),
        (crawlSiteRecursive web d seed []).events =
          balancedEvents ((crawlSiteRecursive web d seed []).renders)) := by
  refine ⟨?_, ?_, ?_⟩
  · intro web d p visited hw hvis
    have hpl : pageLinks web p = none := by rw [pageLinks, hw]
    simp only [crawlSiteRecursive, if_neg hvis, hpl]
  · intro web d p ls visited hw hvis
    have hpl : pageLinks web p = none := by rw [pageLinks, hw]
    simp only [crawlLinks, crawlSiteRecursive, if_neg hvis, hpl]
    simp
  · intro web d seed
    exact (crawlSiteRecursive_inv web d seed []).2.2.2.2

/-- A web in which every page fails to load. -/
def webFail : Web := fun _ => none

theorem crawlSiteRecursive_c5_witness :
    crawlSiteRecursive webFail 1 seedW [] =
      ⟨[], [seedW], [seedW], [.opened seedW, .closed seedW]⟩ :=
  crawlSiteRecursive_c5.1 webFail 0 seedW [] rfl (List.not_mem_nil _)

/-! ## Embedding client -/

/-- Embedding vectors; their numeric content is irrelevant to the claims. -/
abbrev Vec := List Int

/-- Shape of a JavaScript error value as inspected by `embedText`'s catch:
`statusCode = some c` when the error object has a `statusCode` property and
`message = some m` when it has a string `message` property. -/
structure JsError where
  statusCode : Option Nat
  message : Option (List Char)
deriving DecidableEq

/-- JavaScript `String.prototype.includes`: substring containment test. -/
def jsIncludes (pat : List Char) : List Char → Bool
  | [] => pat.isPrefixOf []
  | c :: cs => pat.isPrefixOf (c :: cs) || jsIncludes pat cs

/-- The rate-limit classification of the source's catch block: the error
must carry a `statusCode` property, and then either `statusCode === 429`
or `message?.includes("exhausted")`. -/
def isRateLimit (e : JsError) : Bool :=
  match e.statusCode with
  | none => false
  | some c => c == 429 ||
      (match e.message with
       | some m => jsIncludes ("exhausted".toList) m
       | none => false)

/-- Outcome of an `embedText` call: the returned vector, the distinct
`Max retries reached for embedding` throw placed after the loop, or a
propagated service error. -/
inductive EmbedResult
  | ok (v : Vec)
  | maxRetriesReached
  | raised (e : JsError)
deriving DecidableEq

/-- Instrumented outcome of `embedText`: result, number of service calls
performed, and the backoff waits (ms) in the order they were awaited. -/
structure EmbedTrace where
  result : EmbedResult
  attempts : Nat
  waits : List Nat
deriving DecidableEq

/-- The retry loop of `embedText`: `remaining` loop iterations are left,
the next service call is attempt number `i` (0-based), and the current
backoff is `delay`. The external embedding service is a function from the
attempt number to that call's outcome. A rate-limited attempt waits `delay`
(recorded) and doubles it; any other error is rethrown at once; falling out
of the loop throws the max-retries error. -/
def embedLoop (svc : Nat → Except JsError Vec) : Nat → Nat → Nat → EmbedTrace
  | 0, _, _ => ⟨.maxRetriesReached, 0, []⟩
  | remaining + 1, i, delay =>
    match svc i with
    | .ok v => ⟨.ok v, 1, []⟩
    | .error e =>
      if isRateLimit e then
        let rest := embedLoop svc remaining (i + 1) (2 * delay)
        ⟨rest.result, rest.attempts + 1, delay :: rest.waits⟩
      else ⟨.raised e, 1, []⟩

/-- `embedText(value, retries, delay)` from the source (defaults
`retries = 5`, `delay = 2000` are passed explicitly at call sites). -/
def embedText (svc : Nat → Except JsError Vec) (retries delay : Nat) : EmbedTrace :=
  embedLoop svc retries 0 delay

theorem backoff_waits_succ (delay k : Nat) :
    (List.range (k + 1)).map (fun j => delay * 2 ^ j) =
      delay :: (List.range k).map (fun j => (2 * delay) * 2 ^ j) := by
  rw [List.range_succ_eq_map]
  simp only [List.map_cons, pow_zero, Nat.mul_one, List.map_map]
  congr 1
  apply List.map_congr_left
  intro t _
  simp only [Function.comp]
  rw [pow_succ]
  ring

theorem embedLoop_success (svc : Nat → Except JsError Vec) (v : Vec) :
    ∀ k remaining i delay, k < remaining →
      (∀ j, j < k → ∃ e, svc (i + j) = Except.error e ∧ isRateLimit e = true) →
      svc (i + k) = Except.ok v →
      embedLoop svc remaining i delay =
        ⟨.ok v, k + 1, (List.range k).map (fun j => delay * 2 ^ j)⟩ := by
  intro k
  induction k with
  | zero =>
    intro remaining i delay hk _ hok
    obtain ⟨r, rfl⟩ : ∃ r, remaining = r + 1 := ⟨remaining - 1, by omega⟩
    rw [Nat.add_zero] at hok
    rw [embedLoop, hok]
    simp
  | succ k ihk =>
    intro remaining i delay hk hfail hok
    obtain ⟨r, rfl⟩ : ∃ r, remaining = r + 1 := ⟨remaining - 1, by omega⟩
    obtain ⟨e, he, hrl⟩ := hfail 0 (by omega)
    rw [Nat.add_zero] at he
    rw [embedLoop, he]
    simp only [hrl, if_true]
    have hrest := ihk r (i + 1) (2 * delay) (by omega)
      (fun j hj => by
        have h := hfail (j + 1) (by omega)
        rwa [show i + (j + 1) = i + 1 + j by omega] at h)
      (by rwa [show i + 1 + k = i + (k + 1) by omega])
    rw [hrest, backoff_waits_succ]

theorem embedLoop_exhaust (svc : Nat → Except JsError Vec) :
    ∀ remaining i delay,
      (∀ j, j < remaining → ∃ e, svc (i + j) = Except.error e ∧ isRateLimit e = true) →
      embedLoop svc remaining i delay =
        ⟨.maxRetriesReached, remaining,
          (List.range remaining).map (fun j => delay * 2 ^ j)⟩ := by
  intro remaining
  induction remaining with
  | zero => intro i delay _; rfl
  | succ r ih =>
    intro i delay hfail
    obtain ⟨e, he, hrl⟩ := hfail 0 (by omega)
    rw [Nat.add_zero] at he
    rw [embedLoop, he]
    simp only [hrl, if_true]
    have hrest := ih (i + 1) (2 * delay)
      (fun j hj => by
        have h := hfail (j + 1) (by omega)
        rwa [show i + (j + 1) = i + 1 + j by omega] at h)
    rw [hrest, backoff_waits_succ]

theorem embedLoop_fatal (svc : Nat → Except JsError Vec) (e : JsError) :
    ∀ k remaining i delay, k < remaining →
      (∀ j, j < k → ∃ e', svc (i + j) = Except.error e' ∧ isRateLimit e' = true) →
      svc (i + k) = Except.error e → isRateLimit e = false →
      embedLoop svc remaining i delay =
        ⟨.raised e, k + 1, (List.range k).map (fun j => delay * 2 ^ j)⟩ := by
  intro k
  induction k with
  | zero =>
    intro remaining i delay hk _ herr hnot
    obtain ⟨r, rfl⟩ : ∃ r, remaining = r + 1 := ⟨remaining - 1, by omega⟩
    rw [Nat.add_zero] at herr
    rw [embedLoop, herr]
    simp [hnot]
  | succ k ihk =>
    intro remaining i delay hk hfail herr hnot
    obtain ⟨r, rfl⟩ : ∃ r, remaining = r + 1 := ⟨remaining - 1, by omega⟩
    obtain ⟨e', he', hrl'⟩ := hfail 0 (by omega)
    rw [Nat.add_zero] at he'
    rw [embedLoop, he']
    simp only [hrl', if_true]
    have hrest := ihk r (i + 1) (2 * delay) (by omega)
      (fun j hj => by
        have h := hfail (j + 1) (by omega)
        rwa [show i + (j + 1) = i + 1 + j by omega] at h)
      (by rwa [show i + 1 + k = i + (k + 1) by omega]) hnot
    rw [hrest, backoff_waits_succ]

/-- C6: under the default policy (5 attempts, initial delay 2000 ms),
`embedText` waits exactly once after each attempt that fails with a
rate-limit signal, the j-th wait being `2000 * 2 ^ j` ms (2 s, 4 s, 8 s,
16 s for the four retry gaps), and against a service that rate-limits the
first k attempts then succeeds it returns the vector after exactly `k + 1`
attempts; the witness instantiates the rate-limits-exactly-twice scenario:
success on attempt 3 after waiting 2 s then 4 s. -/
theorem embedText_c6 (svc : Nat → Except JsError Vec) (k : Nat) (v : Vec)
    (hk : k < 5)
    (hfail : ∀ j, j < k → ∃ e, svc j = Except.error e ∧ isRateLimit e = true)
    (hok : svc k = Except.ok v) :
    embedText svc 5 2000 =
      ⟨.ok v, k + 1, (List.range k).map (fun j => 2000 * 2 ^ j)⟩ :=
  embedLoop_success svc v k 5 0 2000 hk (by simpa using hfail) (by simpa using hok)

/-- The rate-limit error used by the concrete retry scenarios. -/
def rateLimitError : JsError := ⟨some 429, none⟩

/-- A service that fails with a rate-limit signal exactly twice, then
succeeds. -/
def svcTwice : Nat → Except JsError Vec :=
  fun n => if n < 2 then .error rateLimitError else .ok [1]

theorem embedText_c6_witness :
    embedText svcTwice 5 2000 = ⟨.ok [1], 3, [2000, 4000]⟩ := by
  rw [embedText_c6 svcTwice 2 [1] (by omega)
    (fun j hj => ⟨rateLimitError, by simp [svcTwice, hj], rfl⟩)
    (by simp [svcTwice])]
  decide

/-- C7: a service that rate-limits every attempt makes `embedText` fail with
the distinct max-retries condition after exactly the configured attempt
count, never more; that condition is a different constructor from every
propagated service error; and a failure that is not a rate-limit signal is
not retried — it propagates from the very attempt in which it occurred. -/
theorem embedText_c7 :
    (∀ (svc : Nat → Except JsError Vec) (retries delay : Nat),
        (∀ j, j < retries → ∃ e, svc j = Except.error e ∧ isRateLimit e = true) →
        embedText svc retries delay =
          ⟨.maxRetriesReached, retries,
            (List.range retries).map (fun j => delay * 2 ^ j)⟩) ∧
    (∀ e : JsError, EmbedResult.maxRetriesReached ≠ EmbedResult.raised e) ∧
    (∀ (svc : Nat → Except JsError Vec) (retries delay k : Nat) (e : JsError),
        k < retries →
        (∀ j, j < k → ∃ e', svc j = Except.error e' ∧ isRateLimit e' = true) →
        svc k = Except.error e → isRateLimit e = false →
        embedText svc retries delay =
          ⟨.raised e, k + 1, (List.range k).map (fun j => delay * 2 ^ j)⟩) := by
  refine ⟨?_, ?_, ?_⟩
  · intro svc retries delay hfail
    exact embedLoop_exhaust svc retries 0 delay (by simpa using hfail)
  · intro e h
    cases h
  · intro svc retries delay k e hk hfail herr hnot
    exact embedLoop_fatal svc e k retries 0 delay hk (by simpa using hfail)
      (by simpa using herr) hnot

/-- A service that fails with a rate-limit signal on every attempt. -/
def svcAlways : Nat → Except JsError Vec := fun _ => .error rateLimitError

theorem embedText_c7_witness :
    embedText svcAlways 5 2000 =
      ⟨.maxRetriesReached, 5, [2000, 4000, 8000, 16000, 32000]⟩ := by
  rw [embedText_c7.1 svcAlways 5 2000 (fun j _ => ⟨rateLimitError, rfl, rfl⟩)]
  decide

/-! ## Index store and orchestrator -/

/-- A persisted `documents` row: `{ url, chunk_index, text, embedding }`. -/
structure Row where
  url : Url
  chunk_index : Nat
  text : List Char
  embedding : Vec
deriving DecidableEq

/-- The supabase head-count query of `ensurePageIndexed`: the number of
stored rows whose `url` column equals `url` exactly. -/
def countRows (store : List Row) (url : Url) : Nat :=
  (store.filter (fun r => r.url == url)).length

/-- Observable external calls made by an indexing run. -/
inductive IndexEvent
  | scrapeCall (u : Url)
  | embedCall (c : List Char)
  | insertCall (u : Url) (i : Nat) (c : List Char) (v : Vec)
deriving DecidableEq

/-- The `for (const [i, chunk] of chunks.entries())` loop of
`ensurePageIndexed`: embed each chunk in index order and insert one row per
chunk. An embedding failure (`embedOf c = none`, i.e. `embedText` threw)
escapes the loop; the insert's response object is discarded by the source
(`await supabase.from('documents').insert([...])` with no error check), so a
row is persisted exactly when the store accepts it (`insertOk`) and the loop
continues either way. The boolean records whether the loop completed without
an exception. -/
def insertChunks (embedOf : List Char → Option Vec) (insertOk : Url → Nat → Bool)
    (url : Url) : List (List Char) → Nat → List Row → List Row × List IndexEvent × Bool
  | [], _, store => (store, [], true)
  | c :: cs, i, store =>
    match embedOf c with
    | none => (store, [.embedCall c], false)
    | some v =>
      let store1 := if insertOk url i then store ++ [⟨url, i, c, v⟩] else store
      let rest := insertChunks embedOf insertOk url cs (i + 1) store1
      (rest.1, .embedCall c :: .insertCall url i c v :: rest.2.1, rest.2.2)

/-- `ensurePageIndexed(browser, url)`: return at once when the exact-URL row
count is positive; otherwise scrape the page (`extract url = none` models a
scrape that throws), chunk the extracted text with the default chunker
parameters as `scrapePage` does, and embed and insert every chunk in chunk
order. -/
def ensurePageIndexed (extract : Url → Option (List Char))
    (embedOf : List Char → Option Vec) (insertOk : Url → Nat → Bool)
    (url : Url) (store : List Row) : List Row × List IndexEvent × Bool :=
  if 0 < countRows store url then (store, [], true)
  else
    match extract url with
    | none => (store, [.scrapeCall url], false)
    | some text =>
      let rest := insertChunks embedOf insertOk url (chunkText text 800 200) 0 store
      (rest.1, .scrapeCall url :: rest.2.1, rest.2.2)

/-- The per-URL loop of `ensurePagesIndexed`: each URL is indexed inside its
own try/catch, so a failed page (boolean `false`) does not stop the run. -/
def indexUrls (extract : Url → Option (List Char)) (embedOf : List Char → Option Vec)
    (insertOk : Url → Nat → Bool) : List Url → List Row → List Row × List IndexEvent
  | [], store => (store, [])
  | u :: us, store =>
    let o1 := ensurePageIndexed extract embedOf insertOk u store
    let o2 := indexUrls extract embedOf insertOk us o1.1
    (o2.1, o1.2.1 ++ o2.2)

/-- `ensurePagesIndexed(baseUrl)`: crawl the seed with the default depth 2,
then index every discovered URL in discovery order. -/
def ensurePagesIndexed (web : Web) (extract : Url → Option (List Char))
    (embedOf : List Char → Option Vec) (insertOk : Url → Nat → Bool)
    (baseUrl : Url) (store : List Row) : List Row × List IndexEvent :=
  indexUrls extract embedOf insertOk ((crawlSiteRecursive web 2 baseUrl []).results) store

theorem ensurePageIndexed_skip (extract : Url → Option (List Char))
    (embedOf : List Char → Option Vec) (insertOk : Url → Nat → Bool)
    (url : Url) (store : List Row) (h : 0 < countRows store url) :
    ensurePageIndexed extract embedOf insertOk url store = (store, [], true) := by
  rw [ensurePageIndexed, if_pos h]

theorem indexUrls_all_indexed (extract : Url → Option (List Char))
    (embedOf : List Char → Option Vec) (insertOk : Url → Nat → Bool) :
    ∀ (urls : List Url) (store : List Row),
      (∀ u ∈ urls, 0 < countRows store u) →
      indexUrls extract embedOf insertOk urls store = (store, []) := by
  intro urls
  induction urls with
  | nil => intro store _; rfl
  | cons u us ih =>
    intro store hall
    have h1 := ensurePageIndexed_skip extract embedOf insertOk u store
      (hall u (List.mem_cons_self _ _))
    simp only [indexUrls, h1]
    have h2 := ih store (fun x hx => hall x (List.mem_cons.mpr (Or.inr hx)))
    simp [h2]

/-- C8: for every already-indexed URL `ensurePageIndexed` returns with the
store untouched and performs no scrape, embed or insert call; consequently,
when every discovered URL of an indexing run already has at least one stored
row, the whole run persists zero additional rows and performs no external
call at all. -/
theorem indexing_c8 (web : Web) (extract : Url → Option (List Char))
    (embedOf : List Char → Option Vec) (insertOk : Url → Nat → Bool) :
    (∀ (url : Url) (store : List Row), 0 < countRows store url →
        ensurePageIndexed extract embedOf insertOk url store = (store, [], true)) ∧
    (∀ (baseUrl : Url) (store : List Row),
        (∀ u ∈ (crawlSiteRecursive web 2 baseUrl []).results, 0 < countRows store u) →
        ensurePagesIndexed web extract embedOf insertOk baseUrl store = (store, [])) := by
  constructor
  · intro url store h
    exact ensurePageIndexed_skip extract embedOf insertOk url store h
  · intro baseUrl store hall
    exact indexUrls_all_indexed extract embedOf insertOk _ store hall

/-- A store that already holds one row for the seed URL. -/
def storeSeed : List Row := [⟨seedW, 0, List.replicate 60 'a', [1]⟩]

theorem indexing_c8_witness :
    ensurePagesIndexed webW (fun _ => none) (fun _ => none) (fun _ _ => true)
      seedW storeSeed = (storeSeed, []) :=
  (indexing_c8 webW (fun _ => none) (fun _ => none) (fun _ _ => true)).2 seedW storeSeed
    (by decide)

/-- Chunk indices persisted for a URL, in store order. -/
def chunkIndicesFor (store : List Row) (url : Url) : List Nat :=
  (store.filter (fun r => r.url == url)).map (fun r => r.chunk_index)

/-- A page URL used by the partial-persistence scenario. -/
def urlP : Url := "https://site.example/p".toList

/-- Its extracted text: 700 characters, which chunk into two pieces
(indices 0 and 1). -/
def textP : List Char := List.replicate 700 'b'

/-- Environment in which scraping and embedding always succeed. -/
def extractP : Url → Option (List Char) := fun u => if u = urlP then some textP else none

/-- Embedding succeeds for every chunk. -/
def embedP : List Char → Option Vec := fun _ => some [1]

/-- A store that silently rejects the insert of chunk 0 and accepts every
other insert — the source never inspects the insert response, so the loop
continues. -/
def insertSkip0 : Url → Nat → Bool := fun _ i => i != 0

set_option maxRecDepth 1000000 in
/-- C9 counterexample: indexing `urlP` against a store that silently rejects
the first insert persists exactly the row with chunk index 1, so the
persisted indices for the URL are `[1]` — neither contiguous from 0 nor a
contiguous prefix of the page's chunks — while the indexing loop finishes
the page normally. -/
theorem indexing_c9_counterexample :
    chunkIndicesFor (ensurePageIndexed extractP embedP insertSkip0 urlP []).1 urlP = [1] ∧
      [1] ≠ List.range 1 := by
  decide

theorem insertChunks_insertAlways (embedOf : List Char → Option Vec) (url : Url) :
    ∀ (cs : List (List Char)) (i : Nat) (store : List Row),
      ∃ k, k ≤ cs.length ∧
        (insertChunks embedOf (fun _ _ => true) url cs i store).1 =
          store ++ ((cs.take k).enumFrom i).map
            (fun p => ⟨url, p.1, p.2, (embedOf p.2).getD []⟩) ∧
        (k = cs.length ∨ ∃ c, cs.get? k = some c ∧ embedOf c = none) := by
  intro cs
  induction cs with
  | nil =>
    intro i store
    exact ⟨0, Nat.le_refl _, by simp [insertChunks], Or.inl rfl⟩
  | cons c cs ih =>
    intro i store
    rcases hec : embedOf c with _ | v
    · refine ⟨0, Nat.zero_le _, ?_, Or.inr ⟨c, rfl, hec⟩⟩
      simp [insertChunks, hec]
    · obtain ⟨k, hk, hstore, hlast⟩ := ih (i + 1) (store ++ [⟨url, i, c, v⟩])
      refine ⟨k + 1, by simpa using hk, ?_, ?_⟩
      · simp only [insertChunks, hec, if_true]
        rw [hstore]
        simp [List.enumFrom, hec]
      · rcases hlast with h | ⟨c', hc', hec'⟩
        · exact Or.inl (by simp [h])
        · exact Or.inr ⟨c', by simpa using hc', hec'⟩

/-- C9 as amended: the rows the code attempts to persist for a URL carry
chunk indices 0, 1, 2, … in the chunker's output order, and when indexing of
the URL stops partway (an embedding failure) the attempted rows are a
contiguous prefix of the page's chunks; therefore, provided the store
accepts every insert (the source never checks the insert response), the
persisted rows for a not-yet-indexed URL are exactly the chunks `0 … k-1` in
order, with `k` the full chunk count unless embedding failed at chunk `k`. -/
theorem indexing_c9_amended (extract : Url → Option (List Char))
    (embedOf : List Char → Option Vec) (url : Url) (text : List Char) (store : List Row)
    (hx : extract url = some text) (h0 : countRows store url = 0) :
    ∃ k, k ≤ (chunkText text 800 200).length ∧
      chunkIndicesFor (ensurePageIndexed extract embedOf (fun _ _ => true) url store).1 url =
        List.range k ∧
      ((ensurePageIndexed extract embedOf (fun _ _ => true) url store).1.filter
          (fun r => r.url == url)).map (fun r => (r.chunk_index, r.text)) =
        ((chunkText text 800 200).take k).enum ∧
      (k = (chunkText text 800 200).length ∨
        ∃ c, (chunkText text 800 200).get? k = some c ∧ embedOf c = none) := by
  have hnot : ¬ 0 < countRows store url := by omega
  have hstorefilter : store.filter (fun r => r.url == url) = [] := by
    have := h0
    rw [countRows] at this
    exact List.eq_nil_of_length_eq_zero this
  obtain ⟨k, hk, hstore, hlast⟩ :=
    insertChunks_insertAlways embedOf url (chunkText text 800 200) 0 store
  refine ⟨k, hk, ?_, ?_, hlast⟩
  · rw [chunkIndicesFor, ensurePageIndexed, if_neg hnot, hx]
    simp only [hstore, List.filter_append, hstorefilter, List.nil_append]
    rw [List.filter_eq_self.mpr ?hall]
    case hall =>
      intro r hr
      rcases List.mem_map.mp hr with ⟨p, _, rfl⟩
      simp
    rw [List.map_map]
    have : ((fun r : Row => r.chunk_index) ∘
        (fun p : Nat × List Char => (⟨url, p.1, p.2, (embedOf p.2).getD []⟩ : Row))) =
        (fun p : Nat × List Char => p.1) := rfl
    rw [this]
    rw [List.enumFrom_map_fst]
    simp [List.range_eq_range', List.length_take, Nat.min_eq_left hk]
  · rw [ensurePageIndexed, if_neg hnot, hx]
    simp only [hstore, List.filter_append, hstorefilter, List.nil_append]
    rw [List.filter_eq_self.mpr ?hall2]
    case hall2 =>
      intro r hr
      rcases List.mem_map.mp hr with ⟨p, _, rfl⟩
      simp
    rw [List.map_map]
    have : ((fun r : Row => (r.chunk_index, r.text)) ∘
        (fun p : Nat × List Char => (⟨url, p.1, p.2, (embedOf p.2).getD []⟩ : Row))) =
        (fun p : Nat × List Char => (p.1, p.2)) := rfl
    rw [this]
    simp [List.enum]

theorem indexing_c9_witness :
    ∃ k, k ≤ (chunkText textP 800 200).length ∧
      chunkIndicesFor (ensurePageIndexed extractP embedP (fun _ _ => true) urlP []).1 urlP =
        List.range k ∧
      ((ensurePageIndexed extractP embedP (fun _ _ => true) urlP []).1.filter
          (fun r => r.url == urlP)).map (fun r => (r.chunk_index, r.text)) =
        ((chunkText textP 800 200).take k).enum ∧
      (k = (chunkText textP 800 200).length ∨
        ∃ c, (chunkText textP 800 200).get? k = some c ∧ embedP c = none) :=
  indexing_c9_amended extractP embedP urlP textP [] (by simp [extractP]) rfl

/-! ## Retrieval -/

/-- Response of the `match_documents` similarity RPC: `Except.error` models
a returned `error` field (which `searchDocuments` throws), and the payload
is the nullable `data` array whose rows expose a `text` field. -/
abbrev RpcResult := Except Unit (Option (List (List Char)))

/-- `searchDocuments(query, topK)` from the source: embed the query with the
default retry policy, call the similarity RPC with the query vector and
`topK`, throw the RPC error if present, and join the returned texts (the
`data ?? []` default) with blank lines. A thrown exception — embedding
exhaustion, a propagated service error, or the store error — is modelled as
`Except.error`. -/
def searchDocuments (svc : Nat → Except JsError Vec) (rpc : Vec → Nat → RpcResult)
    (topK : Nat) : Except Unit (List Char) :=
  match (embedText svc 5 2000).result with
  | .ok v =>
    match rpc v topK with
    | .error _ => .error ()
    | .ok data => .ok (List.intercalate ['\n', '\n'] (data.getD []))
  | _ => .error ()

/-- The retrieval fragment of the `POST` handler: `retrievedText` starts as
the empty string; when the last user text is nonempty the handler runs
`searchDocuments(lastUserText, 4)` inside a try/catch whose catch only logs,
leaving the empty string in place. -/
def retrievedTextOf (svc : Nat → Except JsError Vec) (rpc : Vec → Nat → RpcResult)
    (lastUserText : List Char) : List Char :=
  if lastUserText.isEmpty then []
  else
    match searchDocuments svc rpc 4 with
    | .ok t => t
    | .error _ => []

/-- C10: whenever the retrieval path fails — the query embedding produces no
vector (retry exhaustion or a propagated service error) or the store's
similarity query reports an error — the retrieval result delivered to the
handler is the empty string, not a raised exception, so downstream
generation proceeds without retrieved context. -/
theorem retrieval_c10 :
    (∀ (svc : Nat → Except JsError Vec) (rpc : Vec → Nat → RpcResult) (q : List Char),
        (∀ v : Vec, (embedText svc 5 2000).result ≠ .ok v) →
        retrievedTextOf svc rpc q = []) ∧
    (∀ (svc : Nat → Except JsError Vec) (rpc : Vec → Nat → RpcResult) (q : List Char)
        (v : Vec),
        (embedText svc 5 2000).result = .ok v → rpc v 4 = .error () →
        retrievedTextOf svc rpc q = []) := by
  constructor
  · intro svc rpc q hfail
    by_cases hq : q.isEmpty
    · simp [retrievedTextOf, hq]
    · rw [retrievedTextOf, if_neg hq]
      rcases hres : (embedText svc 5 2000).result with v | _ | e
      · exact absurd hres (hfail v)
      · simp [searchDocuments, hres]
      · simp [searchDocuments, hres]
  · intro svc rpc q v hemb hrpc
    by_cases hq : q.isEmpty
    · simp [retrievedTextOf, hq]
    · rw [retrievedTextOf, if_neg hq]
      simp [searchDocuments, hemb, hrpc]

/-- An embedding service that succeeds at once. -/
def svcOk : Nat → Except JsError Vec := fun _ => .ok [1]

/-- A similarity RPC that always reports a store error. -/
def rpcErr : Vec → Nat → RpcResult := fun _ _ => .error ()

theorem retrieval_c10_witness :
    retrievedTextOf svcOk rpcErr ("hello".toList) = [] :=
  retrieval_c10.2 svcOk rpcErr ("hello".toList) [1] rfl rfl

end Swarise
